import Mathlib

/-!
Shallow embedding of the go-url-shortener storage layer.

The repository has three storage backends, all exposing `Save`/`Load`:
* a pure in-memory variant (`internal/storage/storage.go`, first file):
  a `map[string]string` guarded by a `sync.RWMutex`; `Save` generates up
  to 5 random candidate ids, checks each for presence and inserts the
  first absent one;
* a file-log variant (the `unnamed/part_000` file): same in-memory map,
  plus an append-only tab-separated log file; `NewStorage` replays the
  file, `Save` additionally appends `id\tlongURL\n` and rolls the map
  back if the append fails;
* a relational variant (second half of `storage.go`): an `INSERT` per
  attempt, retried when the database reports unique-violation code
  23505.

Strings are modelled as `List Char`, the Go `map[string]string` as an
association list with most-recent-binding-first semantics, and the
random generator as an environment-supplied list of candidate
identifiers (the successive outputs of `generateShortID`).  File I/O
failures are environment parameters (`appendFails`, `openFails`).
-/

namespace UrlShortener

/-- Strings as lists of characters. -/
abbrev Str := List Char

/-- The Go `map[string]string`: an association list, most recent binding
first. -/
abbrev UrlMap := List (Str × Str)

/-- Map lookup (`urls[shortID]`): first binding wins, so the most recent
insert shadows older ones, matching Go map overwrite semantics. -/
def lookupMap : UrlMap → Str → Option Str
  | [], _ => none
  | (k, v) :: rest, id => if k = id then some v else lookupMap rest id

/-- Map insert (`urls[shortID] = longURL`): cons a new binding; lookup
finds it first, so it overwrites any previous binding. -/
def insertMap (m : UrlMap) (k v : Str) : UrlMap := (k, v) :: m

/-- Map delete (`delete(urls, shortID)`): remove every binding of the
key. -/
def eraseMap : UrlMap → Str → UrlMap
  | [], _ => []
  | p :: rest, k => if p.1 = k then eraseMap rest k else p :: eraseMap rest k

/-- The 62-character alphabet of `generateShortID` (`charset` in the
source). -/
def charset : Str :=
  "abcdefghijklmnopqrstuvwxyzABCDEFGHIJKLMNOPQRSTUVWXYZ0123456789".data

/-- `shortIDLength` in the source. -/
def shortIDLength : Nat := 6

/-- An identifier that `generateShortID` can produce: `shortIDLength`
characters drawn from `charset`. -/
def validId (id : Str) : Prop := id.length = shortIDLength ∧ ∀ c ∈ id, c ∈ charset

instance (id : Str) : Decidable (validId id) := by
  unfold validId; infer_instance

/-- Outcome of a `Save` call, matching the distinct error values of the
source: success with the id, the "failed to generate a unique short ID
after multiple attempts" error, and the "failed to save URL
persistently" error of the file variant. -/
inductive SaveOut where
  | saved (id : Str)
  | exhausted
  | persistFail
  deriving DecidableEq

namespace Memory

/-- Body of the retry loop of the in-memory `Save`: for each of the
candidate ids produced by `generateShortID`, check presence and insert
the first absent one; the loop runs at most 5 times. -/
def SaveLoop (urls : UrlMap) (longURL : Str) : List Str → SaveOut × UrlMap
  | [] => (.exhausted, urls)
  | shortID :: rest =>
    if (lookupMap urls shortID).isSome then SaveLoop urls longURL rest
    else (.saved shortID, insertMap urls shortID longURL)

/-- In-memory `Save`: `gens` is the stream of candidate ids the
generator would produce; the loop consumes at most 5 of them. -/
def Save (urls : UrlMap) (gens : List Str) (longURL : Str) : SaveOut × UrlMap :=
  SaveLoop urls longURL (gens.take 5)

/-- In-memory `Load`: a map lookup; `none` models the
"short ID not found" error. -/
def Load (urls : UrlMap) (shortID : Str) : Option Str :=
  lookupMap urls shortID

/-- A sequence of `Save` calls on one store, each with its own candidate
stream and long URL, starting from `urls`; returns the final map and the
ids returned by the successful calls. -/
def runSaves (urls : UrlMap) : List (List Str × Str) → UrlMap × List Str
  | [] => (urls, [])
  | (gens, longURL) :: ops =>
    match Save urls gens longURL with
    | (.saved id, m1) =>
      let r := runSaves m1 ops
      (r.1, id :: r.2)
    | (_, m1) => runSaves m1 ops

end Memory

namespace FileLog

/-- State of the file-log variant: the in-memory index plus the content
of the storage file. -/
structure FStore where
  urls : UrlMap
  file : Str
  deriving DecidableEq

/-- A store over an empty file, as `NewStorage` builds when the file is
absent. -/
def emptyStore : FStore := ⟨[], []⟩

/-- The candidate-search loop of the file-log `Save` (`for range 5`):
return the first generated id that is absent from the map, or none if
all candidates collide. -/
def findUnique (urls : UrlMap) : List Str → Option Str
  | [] => none
  | c :: rest => if (lookupMap urls c).isSome then findUnique urls rest else some c

/-- `appendToFile`: append the record `shortID\tlongURL\n` to the file
(`fmt.Sprintf("%s\t%s\n", shortID, longURL)`). -/
def appendToFile (file shortID longURL : Str) : Str :=
  file ++ shortID ++ '\t' :: (longURL ++ ['\n'])

/-- File-log `Save`: search at most 5 candidates for a free id; on
exhaustion fail without touching anything; otherwise insert into the
map, then append to the file; if the append fails (environment flag
`appendFails`), delete the just-inserted entry and report the
persistence failure. -/
def Save (s : FStore) (gens : List Str) (longURL : Str) (appendFails : Bool) :
    SaveOut × FStore :=
  match findUnique s.urls (gens.take 5) with
  | none => (.exhausted, s)
  | some shortID =>
    let urls1 := insertMap s.urls shortID longURL
    if appendFails then
      (.persistFail, ⟨eraseMap urls1 shortID, s.file⟩)
    else
      (.saved shortID, ⟨urls1, appendToFile s.file shortID longURL⟩)

/-- File-log `Load`: a map lookup, identical to the in-memory one. -/
def Load (s : FStore) (shortID : Str) : Option Str :=
  lookupMap s.urls shortID

/-- `bufio.ScanLines` token post-processing (`dropCR`): strip one
carriage return from the end of a line. -/
def dropCR : Str → Str
  | [] => []
  | [c] => if c = '\r' then [] else [c]
  | c :: c2 :: rest => c :: dropCR (c2 :: rest)

/-- Split the file content into the line tokens `bufio.Scanner` yields:
segments between newline characters.  (The scanner emits no token for
the empty tail after a final newline; our extra `[]` segment is skipped
by `lineStep` exactly like the source skips empty lines.) -/
def splitLines : Str → List Str
  | [] => [[]]
  | c :: rest =>
    if c = '\n' then [] :: splitLines rest
    else
      match splitLines rest with
      | [] => [[c]]
      | l :: ls => (c :: l) :: ls

/-- `strings.SplitN(line, "\t", 2)`: split at the first tab, keeping any
further tabs inside the second field; `none` when the line has no tab
(`len(parts) != 2`, the malformed case). -/
def splitTab : Str → Option (Str × Str)
  | [] => none
  | c :: rest =>
    if c = '\t' then some ([], rest)
    else
      match splitTab rest with
      | some (a, b) => some (c :: a, b)
      | none => none

/-- One iteration of the replay loop of `loadFromFile`: drop a trailing
carriage return (done by the scanner), skip empty lines, skip lines
without a tab (with a diagnostic in the source), and otherwise store the
pair — overwriting any earlier binding of the same id. -/
def lineStep (m : UrlMap) (raw : Str) : UrlMap :=
  let line := dropCR raw
  if line = [] then m
  else
    match splitTab line with
    | none => m
    | some (shortID, longURL) => insertMap m shortID longURL

/-- Replay a list of line tokens starting from map `m`. -/
def processLinesFrom (m : UrlMap) (ls : List Str) : UrlMap :=
  ls.foldl lineStep m

/-- Parse a whole file content into the in-memory index, as
`loadFromFile` does once the file is open. -/
def parseFile (content : Str) : UrlMap :=
  processLinesFrom [] (splitLines content)

/-- `loadFromFile`: fails only when the file cannot be opened or read
(environment flag `openFails`); the content itself never causes a
failure. -/
def loadFromFile (openFails : Bool) (content : Str) : Except Str UrlMap :=
  if openFails then .error "failed to open storage file".data
  else .ok (parseFile content)

/-- `NewStorage`: build the store, replaying the file; when
`loadFromFile` fails the error is logged, the map reset to empty and a
`nil` error returned (the `Option Str` component is the returned `error`
value). -/
def NewStorage (openFails : Bool) (content : Str) : FStore × Option Str :=
  match loadFromFile openFails content with
  | .error _ => (⟨[], content⟩, none)
  | .ok m => (⟨m, content⟩, none)

/-- A sequence of file-log `Save` calls (all appends succeeding),
returning the final store and the (id, longURL) pairs of the successful
calls. -/
def runFileSaves (s : FStore) : List (List Str × Str) → FStore × List (Str × Str)
  | [] => (s, [])
  | (gens, longURL) :: ops =>
    match Save s gens longURL false with
    | (.saved id, s1) =>
      let r := runFileSaves s1 ops
      (r.1, (id, longURL) :: r.2)
    | (_, s1) => runFileSaves s1 ops

end FileLog

namespace Relational

/-- Outcome of one `ExecContext` of the `INSERT` statement: success, a
`pgconn.PgError` with its code, or an error that is not a `PgError`. -/
inductive ExecRes where
  | ok
  | pgErr (code : Str)
  | otherErr
  deriving DecidableEq

/-- `uniqueViolationCode = "23505"` in the source. -/
def uniqueViolationCode : Str := "23505".data

/-- Result of the relational `Save`. -/
inductive RelOut where
  | saved (id : Str)
  | dbFail
  | exhausted
  deriving DecidableEq

/-- The retry loop of the relational `Save` (`for i := 0; i < 5; i++`):
each attempt pairs the generated id with the database's response to its
insert; success returns the id, a unique-violation continues the loop,
any other error returns immediately. -/
def SaveLoop : Nat → List (Str × ExecRes) → RelOut
  | 0, _ => .exhausted
  | _ + 1, [] => .exhausted
  | fuel + 1, (shortID, res) :: rest =>
    match res with
    | .ok => .saved shortID
    | .pgErr code =>
      if code = uniqueViolationCode then SaveLoop fuel rest else .dbFail
    | .otherErr => .dbFail

/-- Relational `Save`: at most 5 attempts. -/
def Save (attempts : List (Str × ExecRes)) : RelOut :=
  SaveLoop 5 attempts

end Relational

namespace Race

/-!
Interleaving model of two concurrent in-memory `Save` calls on the same
store, at the granularity of the source's atomic actions.  `Save` takes
`s.mu.RLock()` — the *shared* read lock of the `sync.RWMutex` — so any
number of `Save` calls may hold it simultaneously; only `Lock` (used by
`Load`) excludes them.  Inside the read-locked section each call checks
`s.urls[shortID]` and then writes `s.urls[shortID] = longURL` as two
separate actions.
-/

/-- Shared state: reader count and writer flag of the `RWMutex`, and the
map. -/
structure Shared where
  readers : Nat
  writer : Bool
  urls : UrlMap
  deriving DecidableEq

/-- Control point of one `Save` call. -/
inductive Pc where
  /-- before `RLock` -/
  | start
  /-- holding the read lock, about to generate/check the next candidate -/
  | loop
  /-- observed the candidate absent, about to insert it -/
  | found (id : Str)
  /-- all 5 candidates collided -/
  | exh
  /-- returned (after the deferred `RUnlock`): `some id` or the
  exhaustion error -/
  | ret (res : Option Str)
  deriving DecidableEq

/-- Thread-local state: control point plus the candidate ids not yet
tried. -/
structure TSt where
  pc : Pc
  cands : List Str
  deriving DecidableEq

/-- One atomic action of a `Save` call with long URL `url`, acting on
its local state and the shared state. -/
inductive TStep (url : Str) : TSt × Shared → TSt × Shared → Prop
  /-- `s.mu.RLock()`: admitted whenever no writer holds the mutex;
  readers share. -/
  | rlock (cands : List Str) (sh : Shared) :
      sh.writer = false →
      TStep url (⟨.start, cands⟩, sh)
        (⟨.loop, cands⟩, { sh with readers := sh.readers + 1 })
  /-- read `s.urls[shortID]` and find the candidate absent -/
  | checkAbsent (c : Str) (rest : List Str) (sh : Shared) :
      lookupMap sh.urls c = none →
      TStep url (⟨.loop, c :: rest⟩, sh) (⟨.found c, rest⟩, sh)
  /-- read `s.urls[shortID]` and find the candidate present: continue
  the loop -/
  | checkPresent (c : Str) (rest : List Str) (sh : Shared) :
      (lookupMap sh.urls c).isSome →
      TStep url (⟨.loop, c :: rest⟩, sh) (⟨.loop, rest⟩, sh)
  /-- the 5 candidates are spent -/
  | exhaust (sh : Shared) :
      TStep url (⟨.loop, []⟩, sh) (⟨.exh, []⟩, sh)
  /-- `s.urls[shortID] = longURL; return shortID` with the deferred
  `RUnlock` -/
  | insert (id : Str) (rest : List Str) (sh : Shared) :
      TStep url (⟨.found id, rest⟩, sh)
        (⟨.ret (some id), rest⟩,
          { sh with readers := sh.readers - 1,
                    urls := insertMap sh.urls id url })
  /-- return the exhaustion error with the deferred `RUnlock` -/
  | fail (sh : Shared) :
      TStep url (⟨.exh, []⟩, sh)
        (⟨.ret none, []⟩, { sh with readers := sh.readers - 1 })

/-- A step of the two-caller system: either caller moves. -/
inductive SysStep (u1 u2 : Str) :
    Shared × TSt × TSt → Shared × TSt × TSt → Prop
  | left {sh sh1 : Shared} {t1 t1q t2 : TSt} :
      TStep u1 (t1, sh) (t1q, sh1) →
      SysStep u1 u2 (sh, t1, t2) (sh1, t1q, t2)
  | right {sh sh2 : Shared} {t1 t2 t2q : TSt} :
      TStep u2 (t2, sh) (t2q, sh2) →
      SysStep u1 u2 (sh, t1, t2) (sh2, t1, t2q)

/-- Executions of the two-caller system. -/
def Reach (u1 u2 : Str) : Shared × TSt × TSt → Shared × TSt × TSt → Prop :=
  Relation.ReflTransGen (SysStep u1 u2)

end Race

/-! ### Proof-layer descriptions of encoded log files -/

/-- A record pair the program can actually persist intact: the id has no
tab and no newline (its characters come from `charset`), the target has
no newline and does not end in a carriage return. -/
def validRec (p : Str × Str) : Prop :=
  '\t' ∉ p.1 ∧ '\n' ∉ p.1 ∧ '\n' ∉ p.2 ∧ p.2.getLast? ≠ some '\r'

/-- The file content produced by appending each record in turn. -/
def encodeAll : List (Str × Str) → Str
  | [] => []
  | p :: rest => (p.1 ++ '\t' :: (p.2 ++ ['\n'])) ++ encodeAll rest

/-- The in-memory map produced by inserting each record in turn. -/
def mapOfRecs (recs : List (Str × Str)) : UrlMap :=
  recs.foldl (fun m p => insertMap m p.1 p.2) []

/-- Preconditions under which a batch of `Save` calls writes only intact
records: every candidate the generator yields is a `charset` string, and
every target has no newline and no trailing carriage return. -/
def goodOps (ops : List (List Str × Str)) : Prop :=
  ∀ op ∈ ops, (∀ g ∈ op.1, validId g) ∧
    '\n' ∉ op.2 ∧ op.2.getLast? ≠ some '\r'

instance (ops : List (List Str × Str)) : Decidable (goodOps ops) := by
  unfold goodOps; infer_instance

/-! ### Basic lemmas about the map operations -/

theorem lookupMap_insert_self (m : UrlMap) (k v : Str) :
    lookupMap (insertMap m k v) k = some v := by
  simp [insertMap, lookupMap]

theorem lookupMap_insert_ne (m : UrlMap) (k v i : Str) (h : k ≠ i) :
    lookupMap (insertMap m k v) i = lookupMap m i := by
  simp [insertMap, lookupMap, h]

theorem eraseMap_of_lookupMap_none (k : Str) :
    ∀ m : UrlMap, lookupMap m k = none → eraseMap m k = m := by
  intro m
  induction m with
  | nil => intro _; rfl
  | cons p rest ih =>
    obtain ⟨a, b⟩ := p
    intro h
    simp only [lookupMap] at h
    by_cases hak : a = k
    · simp [hak] at h
    · simp only [eraseMap, if_neg hak, List.cons.injEq, true_and]
      exact ih (by simpa [if_neg hak] using h)

theorem eraseMap_insert_self (m : UrlMap) (k v : Str) :
    eraseMap (insertMap m k v) k = eraseMap m k := by
  simp [insertMap, eraseMap]

/-! ### Lemmas about the candidate search -/

theorem findUnique_lookup_none (urls : UrlMap) :
    ∀ l id, FileLog.findUnique urls l = some id → lookupMap urls id = none := by
  intro l
  induction l with
  | nil => intro id h; simp [FileLog.findUnique] at h
  | cons c rest ih =>
    intro id h
    cases hx : lookupMap urls c with
    | some v =>
      exact ih id (by simpa [FileLog.findUnique, hx] using h)
    | none =>
      have : c = id := by simpa [FileLog.findUnique, hx] using h
      rw [← this]; exact hx

theorem findUnique_all_present (urls : UrlMap) :
    ∀ l, (∀ c ∈ l, (lookupMap urls c).isSome) → FileLog.findUnique urls l = none := by
  intro l
  induction l with
  | nil => intro _; rfl
  | cons c rest ih =>
    intro h
    have hc := h c (by simp)
    simp only [FileLog.findUnique, hc, if_true]
    exact ih fun d hd => h d (by simp [hd])

/-! ### Lemmas about the in-memory Save loop -/

theorem SaveLoop_saved (longURL : Str) :
    ∀ (l : List Str) (urls m : UrlMap) (id : Str),
      Memory.SaveLoop urls longURL l = (.saved id, m) →
      lookupMap urls id = none ∧ m = insertMap urls id longURL ∧ id ∈ l := by
  intro l
  induction l with
  | nil => intro urls m id h; simp [Memory.SaveLoop] at h
  | cons c rest ih =>
    intro urls m id h
    cases hx : lookupMap urls c with
    | some v =>
      have h2 := ih urls m id (by simpa [Memory.SaveLoop, hx] using h)
      exact ⟨h2.1, h2.2.1, by simp [h2.2.2]⟩
    | none =>
      have h2 : c = id ∧ insertMap urls c longURL = m := by
        simpa [Memory.SaveLoop, hx] using h
      obtain ⟨rfl, rfl⟩ := h2
      exact ⟨hx, rfl, by simp⟩

theorem SaveLoop_all_present (longURL : Str) :
    ∀ (l : List Str) (urls : UrlMap),
      (∀ c ∈ l, (lookupMap urls c).isSome) →
      Memory.SaveLoop urls longURL l = (.exhausted, urls) := by
  intro l
  induction l with
  | nil => intro urls _; rfl
  | cons c rest ih =>
    intro urls h
    have hc := h c (by simp)
    simp only [Memory.SaveLoop, hc, if_true]
    exact ih urls fun d hd => h d (by simp [hd])

/-! ### Characterisation of the file-log Save -/

theorem fileSave_saved (s : FileLog.FStore) (gens : List Str) (longURL : Str)
    (b : Bool) (id : Str) (s1 : FileLog.FStore)
    (h : FileLog.Save s gens longURL b = (.saved id, s1)) :
    FileLog.findUnique s.urls (gens.take 5) = some id ∧ b = false ∧
      s1 = ⟨insertMap s.urls id longURL,
            FileLog.appendToFile s.file id longURL⟩ := by
  cases hf : FileLog.findUnique s.urls (gens.take 5) with
  | none => simp [FileLog.Save, hf] at h
  | some c =>
    cases b with
    | true => simp [FileLog.Save, hf] at h
    | false =>
      have h2 : c = id ∧
          (⟨insertMap s.urls c longURL,
            FileLog.appendToFile s.file c longURL⟩ : FileLog.FStore) = s1 := by
        simpa [FileLog.Save, hf] using h
      obtain ⟨rfl, rfl⟩ := h2
      exact ⟨rfl, rfl, rfl⟩

/-- C2 helper: a successful in-memory `Save` leaves the returned id
bound to the saved URL. -/
theorem memSave_roundtrip (urls : UrlMap) (gens : List Str) (longURL : Str)
    (id : Str) (m : UrlMap)
    (h : Memory.Save urls gens longURL = (.saved id, m)) :
    Memory.Load m id = some longURL := by
  obtain ⟨-, rfl, -⟩ := SaveLoop_saved longURL (gens.take 5) urls m id h
  exact lookupMap_insert_self ..

/-- **C2**: if `Save` succeeds and returns an identifier, `Load` of that
identifier on the same store returns exactly the saved target — for the
in-memory variant and for the file-log variant alike. -/
theorem c2_save_load_roundtrip (urls : UrlMap) (gens gens2 : List Str)
    (longURL longURL2 : Str) (id id2 : Str) (m : UrlMap)
    (s s1 : FileLog.FStore) (b : Bool)
    (hmem : Memory.Save urls gens longURL = (.saved id, m))
    (hfile : FileLog.Save s gens2 longURL2 b = (.saved id2, s1)) :
    Memory.Load m id = some longURL ∧ FileLog.Load s1 id2 = some longURL2 := by
  refine ⟨memSave_roundtrip urls gens longURL id m hmem, ?_⟩
  obtain ⟨-, -, rfl⟩ := fileSave_saved s gens2 longURL2 b id2 s1 hfile
  exact lookupMap_insert_self ..

/-- **C2** witness: saving into an empty store and loading the returned
id gives the target back. -/
theorem c2_save_load_roundtrip_witness :
    Memory.Load [(['a'], ['u'])] ['a'] = some ['u'] ∧
      FileLog.Load ⟨[(['a'], ['u'])], FileLog.appendToFile [] ['a'] ['u']⟩ ['a'] =
        some ['u'] :=
  c2_save_load_roundtrip [] [['a']] [['a']] ['u'] ['u'] ['a'] ['a']
    [(['a'], ['u'])] FileLog.emptyStore
    ⟨[(['a'], ['u'])], FileLog.appendToFile [] ['a'] ['u']⟩ false rfl rfl

/-- **C3**: when the file append fails after a free candidate id was
found, `Save` rolls the in-memory insert back and reports the distinct
persistence failure: the store is returned exactly as it was, and a
subsequent `Load` of that identifier reports not-found. -/
theorem c3_filelog_rollback (s : FileLog.FStore) (gens : List Str)
    (longURL id : Str)
    (h : FileLog.findUnique s.urls (gens.take 5) = some id) :
    FileLog.Save s gens longURL true = (.persistFail, s) ∧
      FileLog.Load s id = none := by
  have hnone := findUnique_lookup_none s.urls (gens.take 5) id h
  constructor
  · have hrb : eraseMap (insertMap s.urls id longURL) id = s.urls := by
      rw [eraseMap_insert_self, eraseMap_of_lookupMap_none id s.urls hnone]
    simp [FileLog.Save, h, hrb]
  · exact hnone

/-- **C3** witness: a concrete store where the append fails on a fresh
id. -/
theorem c3_filelog_rollback_witness :
    FileLog.Save FileLog.emptyStore [['a']] ['u'] true =
        (.persistFail, FileLog.emptyStore) ∧
      FileLog.Load FileLog.emptyStore ['a'] = none :=
  c3_filelog_rollback FileLog.emptyStore [['a']] ['u'] ['a'] rfl

/-- **C4**: when every one of the (at most 5) candidate ids collides,
`Save` returns the distinct exhaustion failure and leaves the store
unchanged — the in-memory map is untouched and, for the file-log
variant, the map and the file are both untouched (nothing appended). -/
theorem c4_exhaustion (urls : UrlMap) (s : FileLog.FStore) (gens : List Str)
    (longURL : Str) (b : Bool)
    (hmem : ∀ c ∈ gens.take 5, (lookupMap urls c).isSome)
    (hfile : ∀ c ∈ gens.take 5, (lookupMap s.urls c).isSome) :
    Memory.Save urls gens longURL = (.exhausted, urls) ∧
      FileLog.Save s gens longURL b = (.exhausted, s) := by
  constructor
  · exact SaveLoop_all_present longURL (gens.take 5) urls hmem
  · simp only [FileLog.Save, findUnique_all_present s.urls (gens.take 5) hfile]

/-- **C4** witness: five candidates, all equal to an occupied id. -/
theorem c4_exhaustion_witness :
    Memory.Save [(['a'], ['u'])] [['a'], ['a'], ['a'], ['a'], ['a']] ['v'] =
        (.exhausted, [(['a'], ['u'])]) ∧
      FileLog.Save ⟨[(['a'], ['u'])], []⟩ [['a'], ['a'], ['a'], ['a'], ['a']]
          ['v'] false =
        (.exhausted, ⟨[(['a'], ['u'])], []⟩) :=
  c4_exhaustion [(['a'], ['u'])] ⟨[(['a'], ['u'])], []⟩
    [['a'], ['a'], ['a'], ['a'], ['a']] ['v'] false
    (by decide) (by decide)

/-! ### Invariants of sequences of in-memory Save calls -/

theorem memSave_cases (urls : UrlMap) (gens : List Str) (longURL : Str)
    (o : SaveOut) (m1 : UrlMap)
    (h : Memory.Save urls gens longURL = (o, m1)) :
    (∃ id, o = .saved id ∧ lookupMap urls id = none ∧
      m1 = insertMap urls id longURL) ∨ (o = .exhausted ∧ m1 = urls) := by
  have hgen : ∀ (l : List Str) (u m : UrlMap) (oo : SaveOut),
      Memory.SaveLoop u longURL l = (oo, m) →
      (∃ id, oo = .saved id) ∨ (oo = .exhausted ∧ m = u) := by
    intro l
    induction l with
    | nil =>
      intro u m oo hh
      injection hh with h1 h2
      exact Or.inr ⟨h1.symm, h2.symm⟩
    | cons c rest ih =>
      intro u m oo hh
      cases hx : lookupMap u c with
      | some v => exact ih u m oo (by simpa [Memory.SaveLoop, hx] using hh)
      | none =>
        have h2 : SaveOut.saved c = oo ∧ insertMap u c longURL = m := by
          simpa [Memory.SaveLoop, hx] using hh
        exact Or.inl ⟨c, h2.1.symm⟩
  rcases hgen (gens.take 5) urls m1 o h with ⟨id, rfl⟩ | ⟨rfl, rfl⟩
  · obtain ⟨h1, h2, -⟩ := SaveLoop_saved longURL (gens.take 5) urls m1 id h
    exact Or.inl ⟨id, rfl, h1, h2⟩
  · exact Or.inr ⟨rfl, rfl⟩

theorem runSaves_lookup_none (id : Str) :
    ∀ (ops : List (List Str × Str)) (urls : UrlMap),
      lookupMap urls id = none → id ∉ (Memory.runSaves urls ops).2 →
      lookupMap (Memory.runSaves urls ops).1 id = none := by
  intro ops
  induction ops with
  | nil => intro urls h _; exact h
  | cons op rest ih =>
    obtain ⟨gens, longURL⟩ := op
    intro urls h hmem
    rcases hsv : Memory.Save urls gens longURL with ⟨o, m1⟩
    rcases memSave_cases urls gens longURL o m1 hsv with
      ⟨sid, rfl, -, rfl⟩ | ⟨rfl, rfl⟩
    · simp only [Memory.runSaves, hsv] at hmem ⊢
      have hne : sid ≠ id := fun hq => hmem (by simp [hq])
      refine ih (insertMap urls sid longURL) ?_ (fun hq => hmem (by simp [hq]))
      rw [lookupMap_insert_ne urls sid longURL id hne]; exact h
    · simp only [Memory.runSaves, hsv] at hmem ⊢
      exact ih m1 h hmem

theorem runSaves_lookup_some (id longURL : Str) :
    ∀ (ops : List (List Str × Str)) (urls : UrlMap),
      lookupMap urls id = some longURL →
      lookupMap (Memory.runSaves urls ops).1 id = some longURL := by
  intro ops
  induction ops with
  | nil => intro urls h; exact h
  | cons op rest ih =>
    obtain ⟨gens, u2⟩ := op
    intro urls h
    rcases hsv : Memory.Save urls gens u2 with ⟨o, m1⟩
    rcases memSave_cases urls gens u2 o m1 hsv with
      ⟨sid, rfl, hnone, rfl⟩ | ⟨rfl, rfl⟩
    · simp only [Memory.runSaves, hsv]
      have hne : sid ≠ id := fun hq => by rw [hq, h] at hnone; cases hnone
      exact ih (insertMap urls sid u2)
        (by rw [lookupMap_insert_ne urls sid u2 id hne]; exact h)
    · simp only [Memory.runSaves, hsv]
      exact ih m1 h

theorem runSaves_mem_isSome (id : Str) :
    ∀ (ops : List (List Str × Str)) (urls : UrlMap),
      id ∈ (Memory.runSaves urls ops).2 →
      (lookupMap (Memory.runSaves urls ops).1 id).isSome := by
  intro ops
  induction ops with
  | nil => intro urls h; simp [Memory.runSaves] at h
  | cons op rest ih =>
    obtain ⟨gens, longURL⟩ := op
    intro urls hmem
    rcases hsv : Memory.Save urls gens longURL with ⟨o, m1⟩
    rcases memSave_cases urls gens longURL o m1 hsv with
      ⟨sid, rfl, -, rfl⟩ | ⟨rfl, rfl⟩
    · simp only [Memory.runSaves, hsv] at hmem ⊢
      rcases List.mem_cons.mp hmem with rfl | hmem2
      · rw [runSaves_lookup_some id longURL rest (insertMap urls id longURL)
          (lookupMap_insert_self urls id longURL)]
        rfl
      · exact ih (insertMap urls sid longURL) hmem2
    · simp only [Memory.runSaves, hsv] at hmem ⊢
      exact ih m1 hmem

/-- **C7**: starting from an empty store and running any sequence of
`Save` calls, `Load id` finds a target exactly when `id` was returned by
one of the successful `Save` calls; in particular every identifier never
returned by a successful `Save` gets the not-found outcome.  (`Load`
itself is a pure lookup in the embedding, modifying no state, exactly as
the source only reads the map under its lock.) -/
theorem c7_load_iff_saved (ops : List (List Str × Str)) (id : Str) :
    (Memory.Load (Memory.runSaves [] ops).1 id).isSome = true ↔
      id ∈ (Memory.runSaves [] ops).2 := by
  constructor
  · intro h
    by_contra hmem
    rw [Memory.Load, runSaves_lookup_none id ops [] rfl hmem] at h
    cases h
  · exact runSaves_mem_isSome id ops []

/-! ### The relational retry loop -/

theorem relSaveLoop_collisions :
    ∀ (pre : List (Str × Relational.ExecRes)) (fuel : Nat)
      (rest : List (Str × Relational.ExecRes)),
      (∀ p ∈ pre, p.2 = .pgErr Relational.uniqueViolationCode) →
      pre.length ≤ fuel →
      Relational.SaveLoop fuel (pre ++ rest) =
        Relational.SaveLoop (fuel - pre.length) rest := by
  intro pre
  induction pre with
  | nil => intro fuel rest _ _; simp
  | cons p pre2 ih =>
    intro fuel rest hpre hlen
    obtain ⟨pid, pres⟩ := p
    have hp : pres = .pgErr Relational.uniqueViolationCode := hpre (pid, pres) (by simp)
    subst hp
    cases fuel with
    | zero => simp at hlen
    | succ f =>
      have h2 := ih f rest (fun q hq => hpre q (by simp [hq])) (by simpa using hlen)
      have h3 : Relational.SaveLoop (f + 1)
          ((pid, Relational.ExecRes.pgErr Relational.uniqueViolationCode) ::
            (pre2 ++ rest)) =
          Relational.SaveLoop f (pre2 ++ rest) := by
        simp [Relational.SaveLoop]
      rw [List.cons_append, h3, h2]
      congr 1
      simp only [List.length_cons]
      omega

/-- **C5**: within the relational `Save` loop, a database error with
unique-violation code 23505 is treated as a collision and consumes one
of the 5 attempts, after which the next attempt proceeds; any other
database error — a `PgError` with a different code or a non-Postgres
error — aborts immediately with the failure, regardless of how the
database would have answered later attempts; and 5 collisions exhaust
the budget. -/
theorem c5_relational_classification
    (pre rest : List (Str × Relational.ExecRes)) (id c : Str)
    (hpre : ∀ p ∈ pre, p.2 = .pgErr Relational.uniqueViolationCode)
    (hlen : pre.length < 5)
    (hc : c ≠ Relational.uniqueViolationCode) :
    Relational.Save (pre ++ (id, .ok) :: rest) = .saved id ∧
      Relational.Save (pre ++ (id, .pgErr c) :: rest) = .dbFail ∧
      Relational.Save (pre ++ (id, .otherErr) :: rest) = .dbFail ∧
      Relational.Save
        (List.replicate 5 (id, .pgErr Relational.uniqueViolationCode) ++ rest) =
        .exhausted := by
  have hstep : ∀ rest2, Relational.SaveLoop 5 (pre ++ rest2) =
      Relational.SaveLoop (5 - pre.length) rest2 :=
    fun rest2 => relSaveLoop_collisions pre 5 rest2 hpre (by omega)
  obtain ⟨k, hk⟩ : ∃ k, 5 - pre.length = k + 1 := ⟨4 - pre.length, by omega⟩
  refine ⟨?_, ?_, ?_, ?_⟩
  · rw [Relational.Save, hstep, hk]; rfl
  · rw [Relational.Save, hstep, hk]
    simp [Relational.SaveLoop, hc]
  · rw [Relational.Save, hstep, hk]; rfl
  · rw [Relational.Save,
      relSaveLoop_collisions (List.replicate 5 (id, .pgErr Relational.uniqueViolationCode))
        5 rest (fun q hq => by rw [List.eq_of_mem_replicate hq]) (by simp)]
    simp [Relational.SaveLoop]

/-- **C5** witness: one collision, then each kind of outcome on the
second attempt. -/
theorem c5_relational_classification_witness :
    Relational.Save
        [(['a'], .pgErr Relational.uniqueViolationCode), (['b'], .ok)] =
        .saved ['b'] ∧
      Relational.Save
        [(['a'], .pgErr Relational.uniqueViolationCode), (['b'], .pgErr ['9'])] =
        .dbFail ∧
      Relational.Save
        [(['a'], .pgErr Relational.uniqueViolationCode), (['b'], .otherErr)] =
        .dbFail ∧
      Relational.Save
        (List.replicate 5 (['b'], .pgErr Relational.uniqueViolationCode)) =
        .exhausted := by
  have h := c5_relational_classification
    [(['a'], .pgErr Relational.uniqueViolationCode)] [] ['b'] ['9']
    (by decide) (by decide) (by decide)
  simpa using h

/-! ### Construction behaviour of the file-log variant -/

/-- **C6** counterexample: when `loadFromFile` fails inside `NewStorage`
(here: the file cannot be opened), the constructor does *not* return a
failure — the returned `error` component is `nil` (`none`) and the store
starts with an empty map, refuting the claim that the failure is
surfaced as a `Failed(error)` outcome. -/
theorem c6_newstorage_swallows_counterexample :
    FileLog.loadFromFile true ['x'] =
        Except.error "failed to open storage file".data ∧
      FileLog.NewStorage true ['x'] = (⟨[], ['x']⟩, none) := by
  exact ⟨rfl, rfl⟩

/-- **C6** amended: when reading the persisted state at construction
fails, `NewStorage` logs a warning, resets the in-memory map to empty,
and returns the store with a `nil` error — the persistence failure is
swallowed, not surfaced to the caller. -/
theorem c6_newstorage_swallows (content : Str) :
    FileLog.NewStorage true content = (⟨[], content⟩, none) := rfl

/-! ### Lemmas about the line codec -/

theorem charset_no_tab : '\t' ∉ charset := by decide

theorem charset_no_nl : '\n' ∉ charset := by decide

theorem validId_no_tab (id : Str) (h : validId id) : '\t' ∉ id :=
  fun hmem => charset_no_tab (h.2 _ hmem)

theorem validId_no_nl (id : Str) (h : validId id) : '\n' ∉ id :=
  fun hmem => charset_no_nl (h.2 _ hmem)

theorem splitLines_append_nl :
    ∀ (xs rest : Str), '\n' ∉ xs →
      FileLog.splitLines (xs ++ '\n' :: rest) = xs :: FileLog.splitLines rest := by
  intro xs
  induction xs with
  | nil => intro rest _; simp [FileLog.splitLines]
  | cons c xs ih =>
    intro rest h
    have hc : ¬(c = '\n') := fun hq => h (by simp [hq])
    have h2 := ih rest (fun hq => h (by simp [hq]))
    simp only [List.cons_append, FileLog.splitLines, if_neg hc, List.append_eq, h2]

theorem splitTab_encode :
    ∀ (id t : Str), '\t' ∉ id →
      FileLog.splitTab (id ++ '\t' :: t) = some (id, t) := by
  intro id
  induction id with
  | nil => intro t _; simp [FileLog.splitTab]
  | cons c id2 ih =>
    intro t h
    have hc : ¬(c = '\t') := fun hq => h (by simp [hq])
    have h2 := ih t (fun hq => h (by simp [hq]))
    simp only [List.cons_append, FileLog.splitTab, if_neg hc, List.append_eq, h2]

theorem splitTab_no_tab :
    ∀ l : Str, '\t' ∉ l → FileLog.splitTab l = none := by
  intro l
  induction l with
  | nil => intro _; rfl
  | cons c rest ih =>
    intro h
    have hc : ¬(c = '\t') := fun hq => h (by simp [hq])
    have h2 := ih (fun hq => h (by simp [hq]))
    simp only [FileLog.splitTab, if_neg hc, h2]

theorem dropCR_concat_ne :
    ∀ (xs : Str) (c : Char), c ≠ '\r' →
      FileLog.dropCR (xs ++ [c]) = xs ++ [c] := by
  intro xs
  induction xs with
  | nil => intro c h; simp [FileLog.dropCR, h]
  | cons a xs ih =>
    intro c h
    cases xs with
    | nil => simp [FileLog.dropCR, h]
    | cons b xs2 =>
      have h2 := ih c h
      simp only [List.cons_append] at h2 ⊢
      rw [FileLog.dropCR, h2]

theorem dropCR_line (id t : Str) (hcr : t.getLast? ≠ some '\r') :
    FileLog.dropCR (id ++ '\t' :: t) = id ++ '\t' :: t := by
  rcases List.eq_nil_or_concat t with rfl | ⟨t0, c, rfl⟩
  · exact dropCR_concat_ne id '\t' (by decide)
  · rw [List.concat_eq_append] at hcr ⊢
    have hc : c ≠ '\r' := fun hq => hcr (by rw [hq]; exact List.getLast?_concat _)
    have hsplit : id ++ '\t' :: (t0 ++ [c]) = (id ++ '\t' :: t0) ++ [c] := by
      simp
    rw [hsplit]
    exact dropCR_concat_ne (id ++ '\t' :: t0) c hc

theorem lineStep_encode (m : UrlMap) (id t : Str) (hid : '\t' ∉ id)
    (hcr : t.getLast? ≠ some '\r') :
    FileLog.lineStep m (id ++ '\t' :: t) = insertMap m id t := by
  unfold FileLog.lineStep
  rw [dropCR_line id t hcr]
  have hne : ¬(id ++ '\t' :: t = []) := by simp
  rw [if_neg hne, splitTab_encode id t hid]

theorem lineStep_malformed (m : UrlMap) (raw : Str)
    (h : '\t' ∉ FileLog.dropCR raw) : FileLog.lineStep m raw = m := by
  unfold FileLog.lineStep
  by_cases he : FileLog.dropCR raw = []
  · rw [if_pos he]
  · rw [if_neg he, splitTab_no_tab _ h]

theorem processFrom_encodeAll :
    ∀ (recs : List (Str × Str)) (m : UrlMap),
      (∀ p ∈ recs, validRec p) →
      FileLog.processLinesFrom m (FileLog.splitLines (encodeAll recs)) =
        recs.foldl (fun m2 p => insertMap m2 p.1 p.2) m := by
  intro recs
  induction recs with
  | nil => intro m _; rfl
  | cons p rest ih =>
    intro m hv
    obtain ⟨id, t⟩ := p
    obtain ⟨hid, hidnl, htnl, hcr⟩ := hv (id, t) (by simp)
    have hshape : encodeAll ((id, t) :: rest) =
        (id ++ '\t' :: t) ++ '\n' :: encodeAll rest := by
      simp [encodeAll]
    have hnl : '\n' ∉ id ++ '\t' :: t := by
      intro hmem
      rcases List.mem_append.mp hmem with h1 | h1
      · exact hidnl h1
      · rcases List.mem_cons.mp h1 with h2 | h2
        · exact absurd h2 (by decide)
        · exact htnl h2
    rw [hshape, splitLines_append_nl _ _ hnl]
    rw [FileLog.processLinesFrom, List.foldl_cons,
      lineStep_encode m id t hid hcr]
    exact ih (insertMap m id t) (fun q hq => hv q (by simp [hq]))

theorem parseFile_encodeAll (recs : List (Str × Str))
    (hv : ∀ p ∈ recs, validRec p) :
    FileLog.parseFile (encodeAll recs) = mapOfRecs recs :=
  processFrom_encodeAll recs [] hv

theorem encodeAll_append :
    ∀ (a b : List (Str × Str)), encodeAll (a ++ b) = encodeAll a ++ encodeAll b := by
  intro a b
  induction a with
  | nil => rfl
  | cons p rest ih => simp [encodeAll, ih]

theorem mapOfRecs_concat (recs : List (Str × Str)) (p : Str × Str) :
    mapOfRecs (recs ++ [p]) = insertMap (mapOfRecs recs) p.1 p.2 := by
  simp [mapOfRecs]

/-! ### Invariants of sequences of file-log Save calls -/

theorem findUnique_mem (urls : UrlMap) :
    ∀ l id, FileLog.findUnique urls l = some id → id ∈ l := by
  intro l
  induction l with
  | nil => intro id h; simp [FileLog.findUnique] at h
  | cons c rest ih =>
    intro id h
    cases hx : lookupMap urls c with
    | some v =>
      exact List.mem_cons_of_mem c
        (ih id (by simpa [FileLog.findUnique, hx] using h))
    | none =>
      have : c = id := by simpa [FileLog.findUnique, hx] using h
      simp [this]

theorem fileSaveFalse_cases (s : FileLog.FStore) (gens : List Str)
    (longURL : Str) (o : SaveOut) (s1 : FileLog.FStore)
    (h : FileLog.Save s gens longURL false = (o, s1)) :
    (∃ id, o = .saved id ∧ lookupMap s.urls id = none ∧ id ∈ gens.take 5 ∧
      s1 = ⟨insertMap s.urls id longURL,
            FileLog.appendToFile s.file id longURL⟩) ∨
      (o = .exhausted ∧ s1 = s) := by
  cases hf : FileLog.findUnique s.urls (gens.take 5) with
  | none =>
    have h2 : SaveOut.exhausted = o ∧ s = s1 := by
      simpa [FileLog.Save, hf] using h
    exact Or.inr ⟨h2.1.symm, h2.2.symm⟩
  | some c =>
    have h2 : SaveOut.saved c = o ∧
        (⟨insertMap s.urls c longURL,
          FileLog.appendToFile s.file c longURL⟩ : FileLog.FStore) = s1 := by
      simpa [FileLog.Save, hf] using h
    exact Or.inl ⟨c, h2.1.symm, findUnique_lookup_none s.urls _ c hf,
      findUnique_mem s.urls _ c hf, h2.2.symm⟩

theorem runFileSaves_lookup_some (id t : Str) :
    ∀ (ops : List (List Str × Str)) (s : FileLog.FStore),
      lookupMap s.urls id = some t →
      lookupMap (FileLog.runFileSaves s ops).1.urls id = some t := by
  intro ops
  induction ops with
  | nil => intro s h; exact h
  | cons op rest ih =>
    obtain ⟨gens, longURL⟩ := op
    intro s h
    rcases hsv : FileLog.Save s gens longURL false with ⟨o, s1⟩
    rcases fileSaveFalse_cases s gens longURL o s1 hsv with
      ⟨sid, rfl, hnone, -, rfl⟩ | ⟨rfl, rfl⟩
    · simp only [FileLog.runFileSaves, hsv]
      have hne : sid ≠ id := fun hq => by rw [hq, h] at hnone; cases hnone
      exact ih ⟨insertMap s.urls sid longURL, _⟩
        (by rw [lookupMap_insert_ne s.urls sid longURL id hne]; exact h)
    · simp only [FileLog.runFileSaves, hsv]
      exact ih s1 h

theorem runFileSaves_mem_lookup (id t : Str) :
    ∀ (ops : List (List Str × Str)) (s : FileLog.FStore),
      (id, t) ∈ (FileLog.runFileSaves s ops).2 →
      lookupMap (FileLog.runFileSaves s ops).1.urls id = some t := by
  intro ops
  induction ops with
  | nil => intro s h; simp [FileLog.runFileSaves] at h
  | cons op rest ih =>
    obtain ⟨gens, longURL⟩ := op
    intro s hmem
    rcases hsv : FileLog.Save s gens longURL false with ⟨o, s1⟩
    rcases fileSaveFalse_cases s gens longURL o s1 hsv with
      ⟨sid, rfl, -, -, rfl⟩ | ⟨rfl, rfl⟩
    · simp only [FileLog.runFileSaves, hsv] at hmem ⊢
      rcases List.mem_cons.mp hmem with heq | hmem2
      · obtain ⟨rfl, rfl⟩ := Prod.mk.injEq .. ▸ heq
        exact runFileSaves_lookup_some id t rest _
          (lookupMap_insert_self s.urls id t)
      · exact ih _ hmem2
    · simp only [FileLog.runFileSaves, hsv] at hmem ⊢
      exact ih s1 hmem

theorem runFileSaves_synced :
    ∀ (ops : List (List Str × Str)) (recs : List (Str × Str))
      (s : FileLog.FStore),
      goodOps ops → (∀ p ∈ recs, validRec p) →
      s.urls = mapOfRecs recs → s.file = encodeAll recs →
      ∃ recsF, (∀ p ∈ recsF, validRec p) ∧
        (FileLog.runFileSaves s ops).1.urls = mapOfRecs recsF ∧
        (FileLog.runFileSaves s ops).1.file = encodeAll recsF := by
  intro ops
  induction ops with
  | nil =>
    intro recs s _ hv hu hf
    exact ⟨recs, hv, hu, hf⟩
  | cons op rest ih =>
    obtain ⟨gens, longURL⟩ := op
    intro recs s hgood hv hu hf
    have hop := hgood (gens, longURL) (by simp)
    have hrest : goodOps rest := fun q hq => hgood q (by simp [hq])
    rcases hsv : FileLog.Save s gens longURL false with ⟨o, s1⟩
    rcases fileSaveFalse_cases s gens longURL o s1 hsv with
      ⟨sid, rfl, -, hsidmem, rfl⟩ | ⟨rfl, rfl⟩
    · simp only [FileLog.runFileSaves, hsv]
      have hsid : validId sid := hop.1 sid (List.mem_of_mem_take hsidmem)
      have hvrec : validRec (sid, longURL) :=
        ⟨validId_no_tab sid hsid, validId_no_nl sid hsid, hop.2.1, hop.2.2⟩
      refine ih (recs ++ [(sid, longURL)]) _ hrest ?_ ?_ ?_
      · intro q hq
        rcases List.mem_append.mp hq with h1 | h1
        · exact hv q h1
        · rw [List.mem_singleton.mp h1]; exact hvrec
      · rw [mapOfRecs_concat, ← hu]
      · rw [encodeAll_append, ← hf]
        simp [encodeAll, FileLog.appendToFile]
    · simp only [FileLog.runFileSaves, hsv]
      exact ih recs s1 hrest hv hu hf

/-- **C8** counterexample (claim as stated, for arbitrary targets): a
target containing a newline is saved successfully, but after
reconstructing the store from the file, `Load` of the saved identifier
returns only the part of the target before the newline. -/
theorem c8_counterexample :
    (FileLog.runFileSaves FileLog.emptyStore
        [([['a', 'a', 'a', 'a', 'a', 'a']], ['a', '\n', 'b'])]).2 =
      [(['a', 'a', 'a', 'a', 'a', 'a'], ['a', '\n', 'b'])] ∧
    FileLog.Load
        (FileLog.NewStorage false
          (FileLog.runFileSaves FileLog.emptyStore
            [([['a', 'a', 'a', 'a', 'a', 'a']], ['a', '\n', 'b'])]).1.file).1
        ['a', 'a', 'a', 'a', 'a', 'a'] = some ['a'] ∧
    (['a'] : Str) ≠ ['a', '\n', 'b'] := by decide

/-- **C8** amended: after saving records whose targets contain no
newline and do not end in a carriage return (candidate ids being
`charset` strings, as `generateShortID` yields), constructing a new
store over the same file and loading each saved identifier returns each
original target unchanged. -/
theorem c8_reload_roundtrip (ops : List (List Str × Str)) (id t : Str)
    (hgood : goodOps ops)
    (hmem : (id, t) ∈ (FileLog.runFileSaves FileLog.emptyStore ops).2) :
    FileLog.Load
      (FileLog.NewStorage false
        (FileLog.runFileSaves FileLog.emptyStore ops).1.file).1 id = some t := by
  obtain ⟨recsF, hvF, hurls, hfile⟩ :=
    runFileSaves_synced ops [] FileLog.emptyStore hgood (by simp) rfl rfl
  have hlk := runFileSaves_mem_lookup id t ops FileLog.emptyStore hmem
  show lookupMap
    (FileLog.parseFile (FileLog.runFileSaves FileLog.emptyStore ops).1.file)
    id = some t
  rw [hfile, parseFile_encodeAll recsF hvF, ← hurls]
  exact hlk

/-- **C8** witness: one saved record with a tab inside the target
survives the reload. -/
theorem c8_reload_roundtrip_witness :
    FileLog.Load
      (FileLog.NewStorage false
        (FileLog.runFileSaves FileLog.emptyStore
          [([['a', 'a', 'a', 'a', 'a', 'a']], ['u', '\t', 'v'])]).1.file).1
      ['a', 'a', 'a', 'a', 'a', 'a'] = some ['u', '\t', 'v'] :=
  c8_reload_roundtrip [([['a', 'a', 'a', 'a', 'a', 'a']], ['u', '\t', 'v'])]
    ['a', 'a', 'a', 'a', 'a', 'a'] ['u', '\t', 'v'] (by decide) (by decide)

/-- **C9**: the reload replays a well-formed line (id, tab, target) as
an insert into the index; when duplicate ids appear the last line wins
(whatever earlier lines bound the id to); a line without a tab is
skipped without affecting the result; and reading content never fails —
`loadFromFile` returns the parsed index for every content. -/
theorem c9_reload_replay (ls1 ls2 : List Str) (bad : Str) (id t : Str)
    (m : UrlMap) (content : Str)
    (hbad : '\t' ∉ FileLog.dropCR bad)
    (hid : '\t' ∉ id) (hcr : t.getLast? ≠ some '\r') :
    FileLog.lineStep m (id ++ '\t' :: t) = insertMap m id t ∧
      FileLog.processLinesFrom m (ls1 ++ bad :: ls2) =
        FileLog.processLinesFrom m (ls1 ++ ls2) ∧
      lookupMap (FileLog.processLinesFrom m (ls1 ++ [id ++ '\t' :: t])) id =
        some t ∧
      FileLog.loadFromFile false content =
        Except.ok (FileLog.parseFile content) := by
  refine ⟨lineStep_encode m id t hid hcr, ?_, ?_, rfl⟩
  · rw [FileLog.processLinesFrom, FileLog.processLinesFrom,
      List.foldl_append, List.foldl_append, List.foldl_cons,
      lineStep_malformed _ bad hbad]
  · rw [FileLog.processLinesFrom, List.foldl_append, List.foldl_cons,
      List.foldl_nil, lineStep_encode _ id t hid hcr]
    exact lookupMap_insert_self ..

/-- **C9** witness: a malformed line between two bindings of the same
id; the later binding wins and the malformed line is ignored. -/
theorem c9_reload_replay_witness :
    FileLog.lineStep [] (['i'] ++ '\t' :: ['t', '2']) =
        insertMap [] ['i'] ['t', '2'] ∧
      FileLog.processLinesFrom []
          ([['i', '\t', 't', '1']] ++ ['b', 'a', 'd'] :: []) =
        FileLog.processLinesFrom [] ([['i', '\t', 't', '1']] ++ []) ∧
      lookupMap
          (FileLog.processLinesFrom []
            ([['i', '\t', 't', '1']] ++ [['i'] ++ '\t' :: ['t', '2']])) ['i'] =
        some ['t', '2'] ∧
      FileLog.loadFromFile false ['z'] =
        Except.ok (FileLog.parseFile ['z']) :=
  c9_reload_replay [['i', '\t', 't', '1']] [] ['b', 'a', 'd'] ['i'] ['t', '2']
    [] ['z'] (by decide) (by decide) (by decide)

/-- **C10** counterexample (claim as stated): the target `"a\r"`
contains no newline, yet writing the record and re-parsing the file does
not restore the pair — `bufio.ScanLines` strips the trailing carriage
return, so the reloaded target is `"a"`. -/
theorem c10_counterexample :
    validId ['a', 'a', 'a', 'a', 'a', 'a'] ∧ '\n' ∉ (['a', '\r'] : Str) ∧
      FileLog.parseFile
          (FileLog.appendToFile [] ['a', 'a', 'a', 'a', 'a', 'a'] ['a', '\r']) =
        [(['a', 'a', 'a', 'a', 'a', 'a'], ['a'])] ∧
      (['a'] : Str) ≠ ['a', '\r'] := by decide

/-- **C10** amended: for every identifier over the fixed alphabet and
every target that contains no newline *and does not end in a carriage
return*, writing the record and re-parsing restores exactly the pair;
tabs inside the target are preserved since each line splits on its first
tab only.  Newline-freedom alone is not sufficient: a trailing carriage
return is stripped on reload. -/
theorem c10_record_roundtrip (id t : Str) (hid : validId id)
    (hnl : '\n' ∉ t) (hcr : t.getLast? ≠ some '\r') :
    FileLog.parseFile (FileLog.appendToFile [] id t) = [(id, t)] := by
  have hshape : FileLog.appendToFile [] id t = encodeAll [(id, t)] := by
    simp [FileLog.appendToFile, encodeAll]
  have hv : ∀ p ∈ [(id, t)], validRec p := by
    intro p hp
    rw [List.mem_singleton.mp hp]
    exact ⟨validId_no_tab id hid, validId_no_nl id hid, hnl, hcr⟩
  rw [hshape, parseFile_encodeAll [(id, t)] hv]
  rfl

/-- **C10** witness: a target with an interior tab (and an interior
carriage return) round-trips. -/
theorem c10_record_roundtrip_witness :
    FileLog.parseFile
        (FileLog.appendToFile [] ['a', 'a', 'a', 'a', 'a', 'a']
          ['x', '\t', '\r', 'y']) =
      [(['a', 'a', 'a', 'a', 'a', 'a'], ['x', '\t', '\r', 'y'])] :=
  c10_record_roundtrip ['a', 'a', 'a', 'a', 'a', 'a'] ['x', '\t', '\r', 'y']
    (by decide) (by decide) (by decide)

/-! ### The read-lock race in Save -/

/-- **C1** (refuted by the code): `Save` guards its existence check and
insert only with `mu.RLock()`, the *shared* read lock, so two concurrent
`Save` calls on the same store interleave freely inside the critical
section.  The execution below is reachable: on a fresh store, with both
generators producing the candidate `"aaaaaa"` first, both callers take
the read lock, both observe the id absent, and both insert and return it
successfully — violating invariant I2 ("exactly one observes a
successful insert"). -/
theorem c1_race_both_succeed :
    Race.Reach ['x'] ['y']
      (⟨0, false, []⟩,
        ⟨.start, [['a', 'a', 'a', 'a', 'a', 'a']]⟩,
        ⟨.start, [['a', 'a', 'a', 'a', 'a', 'a']]⟩)
      (⟨0, false,
          [(['a', 'a', 'a', 'a', 'a', 'a'], ['y']),
           (['a', 'a', 'a', 'a', 'a', 'a'], ['x'])]⟩,
        ⟨.ret (some ['a', 'a', 'a', 'a', 'a', 'a']), []⟩,
        ⟨.ret (some ['a', 'a', 'a', 'a', 'a', 'a']), []⟩) := by
  refine Relation.ReflTransGen.head
    (Race.SysStep.left (Race.TStep.rlock _ _ rfl)) ?_
  refine Relation.ReflTransGen.head
    (Race.SysStep.right (Race.TStep.rlock _ _ rfl)) ?_
  refine Relation.ReflTransGen.head
    (Race.SysStep.left (Race.TStep.checkAbsent _ _ _ rfl)) ?_
  refine Relation.ReflTransGen.head
    (Race.SysStep.right (Race.TStep.checkAbsent _ _ _ rfl)) ?_
  refine Relation.ReflTransGen.head
    (Race.SysStep.left (Race.TStep.insert _ _ _)) ?_
  refine Relation.ReflTransGen.head
    (Race.SysStep.right (Race.TStep.insert _ _ _)) ?_
  exact Relation.ReflTransGen.refl

end UrlShortener
